import Mathlib

/-!
# Verification of the santa process-tree engine

Shallow embedding of `Source/santad/ProcessTree/process_tree.h`.

The repository provides only the header: class declarations, the inline
`GetAnnotation` template and the inline `ProcessToken` copy/move
constructors and assignment operators.  The bodies of the remaining
operations (`Step`, the event handlers, retention, `CreateTree`) are not
part of the sources, so they are modelled from the specification; each
such definition carries a doc comment starting with `Modelled from the
spec:`.  Machine integers (`uint64_t` timestamps, `pid_t`) are modelled
as `Nat`; overflow plays no role in any property considered here.
-/

namespace SantaTree

/-- Process identity: OS process id plus a generation/version
discriminator (`struct Pid` of the data model). -/
structure Pid where
  pid : Nat
  version : Nat
deriving DecidableEq

/-- Identity of the running executable (`struct Program`); the fields are
abstracted to a single identifier. -/
structure Program where
  executable : Nat
deriving DecidableEq

/-- Credential snapshot (`struct Cred`). -/
structure Cred where
  uid : Nat
  gid : Nat
deriving DecidableEq

/-- A type-erased annotation value.  `dynTy` is the identity of the
value's dynamic (concrete) class; the `std::type_index` keys of the
per-process annotation map and `dynamic_pointer_cast`'s type check are
both modelled with these identifiers. -/
structure Ann where
  dynTy : Nat
  payload : Nat
deriving DecidableEq

/-- A process node: identity, program, credentials, shared parent
reference (`none` for roots) and the type-keyed annotation map
(association list from type identity to the stored value). -/
inductive Process where
  | mk (pid : Pid) (program : Program) (cred : Cred)
       (parent : Option Process) (annotations : List (Nat × Ann))

def Process.pid : Process → Pid
  | .mk p _ _ _ _ => p

def Process.program : Process → Program
  | .mk _ pr _ _ _ => pr

def Process.cred : Process → Cred
  | .mk _ _ c _ _ => c

def Process.parent : Process → Option Process
  | .mk _ _ _ pa _ => pa

def Process.annotations : Process → List (Nat × Ann)
  | .mk _ _ _ _ a => a

/-- The chain of processes reached by repeatedly following parent
references, starting from an optional node. -/
def chainFrom : Option Process → List Process
  | none => []
  | some (.mk p pr c pa a) => Process.mk p pr c pa a :: chainFrom pa

/-- `ProcessTree::RootSlice`: the ordered chain from `p` up to and
including its root, following parent references. -/
def rootSlice (p : Process) : List Process :=
  chainFrom (some p)

/-- An annotator, as visible to the fork/backfill creation points: it
may produce one typed annotation (type-identity key and value) for a
freshly created node. -/
abbrev AnnotatorF := Process → Option (Nat × Ann)

/-- The tree state guarded by `mtx_`: `annotators_`, `map_`,
`remove_at_` and `seen_timestamps_` from the header, plus the per-pid
retention multiset.  `seen_timestamps` models the fixed-capacity ring of
the last 32 distinct accepted event timestamps as a list of length at
most 32 (oldest first);  `retained` models the conceptual
`Pid -> count` retention mapping of the spec as a multiset of pids. -/
structure ProcessTree where
  annotators : List AnnotatorF
  map : List (Pid × Process)
  remove_at : List (Nat × Pid)
  seen_timestamps : List Nat
  retained : List Pid

/-- Boolean membership test used for the timestamp ring. -/
def memTs (l : List Nat) (t : Nat) : Bool :=
  l.any (fun u => decide (u = t))

/-- The retention count of a pid: its multiplicity in the retained
multiset. -/
def retainCount (r : List Pid) (q : Pid) : Nat :=
  r.countP (fun x => decide (x = q))

/-- Lookup in the pid-keyed map. -/
def mapLookup (m : List (Pid × Process)) (k : Pid) : Option Process :=
  (m.find? (fun kv => decide (kv.1 = k))).map (fun kv => kv.2)

/-- Insert (or overwrite) a binding in the pid-keyed map. -/
def mapInsert (m : List (Pid × Process)) (k : Pid) (v : Process) :
    List (Pid × Process) :=
  (k, v) :: m.filter (fun kv => !decide (kv.1 = k))

/-- Attach a typed annotation to an annotation map, overwriting any
prior annotation stored under the same type key. -/
def attachAnn (anns : List (Nat × Ann)) (kv : Nat × Ann) :
    List (Nat × Ann) :=
  (kv.1, kv.2) :: anns.filter (fun e => !decide (e.1 = kv.1))

/-- A pending removal is eligible once its timestamp has aged out of the
ring and the retention count of its pid is zero. -/
def eligibleB (seen : List Nat) (retained : List Pid) (e : Nat × Pid) :
    Bool :=
  !memTs seen e.1 && (retainCount retained e.2 == 0)

/-- Modelled from the spec: the lazy removal-eligibility sweep.  Every
pending removal whose timestamp has aged out of `seen_timestamps` and
whose pid has retention count zero is dropped, and the corresponding map
entry is deleted. -/
def prune (tr : ProcessTree) : ProcessTree :=
  { tr with
    map := tr.map.filter (fun kv =>
      !(tr.remove_at.any (fun e =>
        eligibleB tr.seen_timestamps tr.retained e && decide (e.2 = kv.1)))),
    remove_at := tr.remove_at.filter (fun e =>
      !eligibleB tr.seen_timestamps tr.retained e) }

/-- Modelled from the spec: inserting a timestamp into the ring,
evicting the oldest entry if the ring already holds 32 entries. -/
def pushTs (seen : List Nat) (t : Nat) : List Nat :=
  if seen.length < 32 then seen ++ [t] else seen.tail ++ [t]

/-- Modelled from the spec: `ProcessTree::Step`.  Returns the updated
tree and whether the timestamp was novel.  A timestamp already present
in the ring leaves the state untouched and reports `false`; a novel one
is inserted (evicting the oldest if at capacity), the lazy removal sweep
runs, and `true` is reported. -/
def step (tr : ProcessTree) (t : Nat) : ProcessTree × Bool :=
  if memTs tr.seen_timestamps t then (tr, false)
  else (prune { tr with seen_timestamps := pushTs tr.seen_timestamps t }, true)

/-- Run the registered annotators over a freshly created node, attaching
each produced annotation. -/
def runAnnotators (as : List AnnotatorF) (p : Process) : Process :=
  as.foldl
    (fun q f =>
      match f q with
      | none => q
      | some kv =>
          Process.mk q.pid q.program q.cred q.parent
            (attachAnn q.annotations kv))
    p

/-- Modelled from the spec: `ProcessTree::HandleFork`.  If the timestamp
is not novel the call is a no-op.  Otherwise a child is created whose
program and cred are copied from `parent`, whose pid is `newPid` and
whose parent reference is the node currently tracked for `parent`'s
identity; if that node is absent the call makes no further change.
Registered annotators may attach annotations to the new node. -/
def handleFork (tr : ProcessTree) (t : Nat) (parent : Process)
    (newPid : Pid) : ProcessTree :=
  let r := step tr t
  if r.2 then
    match mapLookup r.1.map parent.pid with
    | none => r.1
    | some pnode =>
        { r.1 with
          map := mapInsert r.1.map newPid
            (runAnnotators r.1.annotators
              (Process.mk newPid parent.program parent.cred (some pnode) [])) }
  else r.1

/-- Modelled from the spec: the state change performed by
`ProcessTree::HandleExec` once the pid-number contract has been checked.
If the timestamp is not novel the call is a no-op.  Otherwise a
successor node carrying the new pid, program and cred but the same
parent reference as `p` is installed under `newPid`, with an empty
annotation set (annotations are not copied across exec), and the old key
`p.pid` is scheduled for deferred removal at this timestamp. -/
def handleExecCore (tr : ProcessTree) (t : Nat) (p : Process)
    (newPid : Pid) (prog : Program) (c : Cred) : ProcessTree :=
  let r := step tr t
  if r.2 then
    { r.1 with
      map := mapInsert r.1.map newPid
        (Process.mk newPid prog c p.parent []),
      remove_at := r.1.remove_at ++ [(t, p.pid)] }
  else r.1

/-- `ProcessTree::HandleExec` including its programming contract: it is
a programming error to pass a `newPid` whose pid number differs from
`p`'s, and such a call is signalled as a fatal contract violation
(modelled as `none`) rather than handled gracefully. -/
def handleExec (tr : ProcessTree) (t : Nat) (p : Process) (newPid : Pid)
    (prog : Program) (c : Cred) : Option ProcessTree :=
  if newPid.pid = p.pid.pid then some (handleExecCore tr t p newPid prog c)
  else none

/-- Modelled from the spec: `ProcessTree::HandleExit`.  If the timestamp
is not novel the call is a no-op; otherwise `p.pid` is scheduled for
removal at this timestamp.  The map entry is not deleted immediately. -/
def handleExit (tr : ProcessTree) (t : Nat) (p : Process) : ProcessTree :=
  let r := step tr t
  if r.2 then { r.1 with remove_at := r.1.remove_at ++ [(t, p.pid)] }
  else r.1

/-- Modelled from the spec: `ProcessTree::RetainProcess` increments the
retention count of each given pid. -/
def retainProcess (tr : ProcessTree) (pids : List Pid) : ProcessTree :=
  { tr with retained := pids ++ tr.retained }

/-- Remove one occurrence of a pid from the retention multiset. -/
def removeOne (r : List Pid) (q : Pid) : List Pid :=
  match r with
  | [] => []
  | x :: rest => if x = q then rest else x :: removeOne rest q

/-- Decrement the retention count of each given pid. -/
def releasePids (r : List Pid) (pids : List Pid) : List Pid :=
  pids.foldl removeOne r

/-- Modelled from the spec: `ProcessTree::ReleaseProcess` decrements the
retention counts and then runs the lazy removal sweep, so that a pid
whose pending removal has already aged out is deleted as soon as its
retention drops to zero. -/
def releaseProcess (tr : ProcessTree) (pids : List Pid) : ProcessTree :=
  prune { tr with retained := releasePids tr.retained pids }

/-- `ProcessTree::Get`: lock-protected point lookup. -/
def getProcess (tr : ProcessTree) (target : Pid) : Option Process :=
  mapLookup tr.map target

/-- Modelled from the spec: `ProcessTree::AnnotateProcess` attaches the
annotation to the node tracked for `p`'s identity, keyed by the
annotation's concrete type and overwriting any prior annotation of that
type; it is a silent no-op if `p` is no longer in the map. -/
def annotateProcess (tr : ProcessTree) (p : Process) (a : Ann) :
    ProcessTree :=
  match mapLookup tr.map p.pid with
  | none => tr
  | some node =>
      { tr with
        map := mapInsert tr.map p.pid
          (Process.mk node.pid node.program node.cred node.parent
            (attachAnn node.annotations (a.dynTy, a))) }

/-- `ProcessTree::GetAnnotation<T>` (header lines 142-150): looks up the
type-identity key `T` in the process's annotation map; if no entry
exists it returns `none` (absent), and otherwise it returns an engaged
optional holding the result of `dynamic_pointer_cast<const T>` on the
stored value — the cast yields the value when its dynamic type is `T`
and the null pointer (inner `none`) otherwise. -/
def getAnnotationValue (T : Nat) (p : Process) : Option (Option Ann) :=
  match p.annotations.find? (fun e => decide (e.1 = T)) with
  | none => none
  | some e => some (if e.2.dynTy = T then some e.2 else none)

/-- Modelled from the spec: `Backfill` is abstracted over the external
process-listing collaborator.  The listing supplies the discovered
processes with their parent links already wired; backfill inserts each
of them (running the registered annotators, which may attach annotations
at this creation point) into a fresh tree state. -/
def backfill (annotators : List AnnotatorF) (procs : List Process) :
    ProcessTree :=
  { annotators := annotators,
    map := procs.map (fun p => (p.pid, runAnnotators annotators p)),
    remove_at := [],
    seen_timestamps := [],
    retained := [] }

/-- Modelled from the spec: `CreateTree` validates the supplied
annotator set (the validation predicate is a parameter, as the header
does not define what validity means) and performs an initial backfill
from the external process listing; failure of either yields a
descriptive error and no tree instance. -/
def createTree (validate : List AnnotatorF → Bool)
    (annotators : List AnnotatorF)
    (listing : Except String (List Process)) :
    Except String ProcessTree :=
  if validate annotators then
    match listing with
    | .error e => .error e
    | .ok procs => .ok (backfill annotators procs)
  else .error "invalid annotator set"

/-- `ProcessToken` (header lines 164-185): wraps a tree reference and
the list of retained pids.  `hasTree` models whether the shared tree
pointer is non-null (it becomes null in a moved-from token). -/
structure ProcessToken where
  hasTree : Bool
  pids : List Pid

/-- Modelled from the spec: the main `ProcessToken` constructor retains
the given pids in the tree. -/
def tokenCreate (tr : ProcessTree) (pids : List Pid) :
    ProcessTree × ProcessToken :=
  (retainProcess tr pids, { hasTree := true, pids := pids })

/-- Modelled from the spec: the `ProcessToken` destructor releases the
token's pids (when it still references a tree). -/
def tokenDestroy (tr : ProcessTree) (tok : ProcessToken) : ProcessTree :=
  if tok.hasTree then releaseProcess tr tok.pids else tr

/-- Copy constructor (header lines 169-170): delegates to the main
constructor with the other token's tree and pids, re-retaining them. -/
def tokenCopy (tr : ProcessTree) (tok : ProcessToken) :
    ProcessTree × ProcessToken :=
  tokenCreate tr tok.pids

/-- Move constructor (header lines 171-172): transfers the tree
reference and pid list; the source is left moved-from (null tree, empty
pids).  The tree state is not touched. -/
def tokenMove (tok : ProcessToken) : ProcessToken × ProcessToken :=
  ({ hasTree := tok.hasTree, pids := tok.pids },
   { hasTree := false, pids := [] })

/-- Move assignment (header lines 176-180): overwrites the target's tree
reference and pid list with the source's, leaving the source moved-from.
The target's previous pids are dropped without any release call and the
tree state is not touched.  Returns (new target, moved-from source). -/
def tokenMoveAssign (_tok other : ProcessToken) :
    ProcessToken × ProcessToken :=
  ({ hasTree := other.hasTree, pids := other.pids },
   { hasTree := false, pids := [] })

/-- Copy assignment (header lines 173-175): constructs a temporary from
the source (retaining its pids) and move-assigns it into the target; the
temporary is destroyed moved-from, so it releases nothing, and the
target's previous pids are dropped without any release call. -/
def tokenCopyAssign (tr : ProcessTree) (_tok other : ProcessToken) :
    ProcessTree × ProcessToken :=
  (retainProcess tr other.pids, { hasTree := true, pids := other.pids })

/-- The lifecycle events ingested by the tree. -/
inductive Evt where
  | fork (t : Nat) (parent : Process) (newPid : Pid)
  | exec (t : Nat) (p : Process) (newPid : Pid) (prog : Program) (c : Cred)
  | exit (t : Nat) (p : Process)

def Evt.timestamp : Evt → Nat
  | .fork t _ _ => t
  | .exec t _ _ _ _ => t
  | .exit t _ => t

/-- The documented precondition of the event: for exec, the new pid must
carry the same OS pid number. -/
def Evt.valid : Evt → Prop
  | .exec _ p np _ _ => np.pid = p.pid.pid
  | _ => True

/-- Whether the event names `q` as an insertion or removal target. -/
def Evt.touches : Evt → Pid → Prop
  | .fork _ _ np, q => np = q
  | .exec _ p np _ _, q => np = q ∨ p.pid = q
  | .exit _ p, q => p.pid = q

/-- Dispatch an event to its handler. -/
def applyEvt (tr : ProcessTree) : Evt → ProcessTree
  | .fork t parent np => handleFork tr t parent np
  | .exec t p np prog c => handleExecCore tr t p np prog c
  | .exit t p => handleExit tr t p

/-- Process a sequence of events. -/
def applyEvts (tr : ProcessTree) (es : List Evt) : ProcessTree :=
  es.foldl applyEvt tr

/-- Every tree operation, for invariant statements: timestamp recording,
the three event handlers, and retention. -/
inductive Op where
  | step (t : Nat)
  | fork (t : Nat) (parent : Process) (newPid : Pid)
  | exec (t : Nat) (p : Process) (newPid : Pid) (prog : Program) (c : Cred)
  | exit (t : Nat) (p : Process)
  | retain (pids : List Pid)
  | release (pids : List Pid)

def applyOp (tr : ProcessTree) : Op → ProcessTree
  | .step t => (step tr t).1
  | .fork t parent np => handleFork tr t parent np
  | .exec t p np prog c => handleExecCore tr t p np prog c
  | .exit t p => handleExit tr t p
  | .retain pids => retainProcess tr pids
  | .release pids => releaseProcess tr pids

/-! ## Basic lemmas about the list-level helpers -/

theorem memTs_iff (l : List Nat) (t : Nat) : memTs l t = true ↔ t ∈ l := by
  simp [memTs, List.any_eq_true]

theorem memTs_eq_false_iff (l : List Nat) (t : Nat) :
    memTs l t = false ↔ t ∉ l := by
  rw [← memTs_iff l t]
  cases memTs l t <;> simp

theorem find?_filter_of_imp {α : Type} (l : List α) (p f : α → Bool)
    (h : ∀ x ∈ l, p x = true → f x = true) :
    (l.filter f).find? p = l.find? p := by
  induction l with
  | nil => rfl
  | cons a rest ih =>
      by_cases hf : f a = true
      · by_cases hp : p a = true
        · simp [List.filter_cons, hf, List.find?, hp]
        · simp only [List.filter_cons, hf, if_true]
          simp only [List.find?, hp]
          exact ih (fun x hx hpx => h x (List.mem_cons_of_mem a hx) hpx)
      · have hp : p a = false := by
          cases hpa : p a
          · rfl
          · exact absurd (h a (List.mem_cons_self a rest) hpa) hf
        have hf' : f a = false := by
          cases hfa : f a
          · rfl
          · exact absurd hfa hf
        simp only [List.filter_cons, hf', if_false, Bool.false_eq_true]
        simp only [List.find?, hp]
        exact ih (fun x hx hpx => h x (List.mem_cons_of_mem a hx) hpx)

theorem find?_filter_none {α : Type} (l : List α) (p f : α → Bool)
    (h : ∀ x ∈ l, p x = true → f x = false) :
    (l.filter f).find? p = none := by
  induction l with
  | nil => rfl
  | cons a rest ih =>
      have ih' := ih (fun x hx hpx => h x (List.mem_cons_of_mem a hx) hpx)
      by_cases hf : f a = true
      · have hp : p a = false := by
          cases hpa : p a
          · rfl
          · rw [h a (List.mem_cons_self a rest) hpa] at hf
            exact absurd hf (by simp)
        simp [List.filter_cons, hf, List.find?, hp, ih']
      · have hf' : f a = false := by
          cases hfa : f a
          · rfl
          · exact absurd hfa hf
        simpa [List.filter_cons, hf'] using ih'

theorem find?_some_of_filter_none {α : Type} (l : List α) (p f : α → Bool)
    (v : α) (hs : l.find? p = some v) (hn : (l.filter f).find? p = none) :
    ∃ x ∈ l, p x = true ∧ f x = false := by
  induction l with
  | nil => simp [List.find?] at hs
  | cons a rest ih =>
      by_cases hp : p a = true
      · refine ⟨a, List.mem_cons_self a rest, hp, ?_⟩
        cases hfa : f a
        · rfl
        · rw [List.filter_cons, if_pos hfa] at hn
          simp [List.find?, hp] at hn
      · have hp' : p a = false := by
          cases hpa : p a
          · rfl
          · exact absurd hpa hp
        rw [List.find?] at hs
        rw [hp'] at hs
        simp only at hs
        have hn' : (rest.filter f).find? p = none := by
          by_cases hfa : f a = true
          · rw [List.filter_cons, if_pos hfa] at hn
            rw [List.find?] at hn
            rw [hp'] at hn
            simpa using hn
          · have : f a = false := by
              cases hf : f a
              · rfl
              · exact absurd hf hfa
            rwa [List.filter_cons, this] at hn
        obtain ⟨x, hx, hpx, hfx⟩ := ih hs hn'
        exact ⟨x, List.mem_cons_of_mem a hx, hpx, hfx⟩

theorem filter_and {α : Type} (l : List α) (p q : α → Bool) :
    (l.filter p).filter q = l.filter (fun a => p a && q a) := by
  induction l with
  | nil => rfl
  | cons a rest ih =>
      cases hp : p a <;> cases hq : q a <;>
        simp [List.filter_cons, hp, hq, ih]

theorem filter_congr_list {α : Type} (l : List α) (p q : α → Bool)
    (h : ∀ a ∈ l, p a = q a) : l.filter p = l.filter q := by
  induction l with
  | nil => rfl
  | cons a rest ih =>
      have ha := h a (List.mem_cons_self a rest)
      have ih' := ih (fun x hx => h x (List.mem_cons_of_mem a hx))
      cases hq : q a
      · rw [hq] at ha
        simp [List.filter_cons, ha, hq, ih']
      · rw [hq] at ha
        simp [List.filter_cons, ha, hq, ih']

theorem filter_swap {α : Type} (l : List α) (p q : α → Bool) :
    (l.filter p).filter q = (l.filter q).filter p := by
  rw [filter_and, filter_and]
  exact filter_congr_list l _ _ (fun a _ => Bool.and_comm (p a) (q a))

/-! ## Lemmas about `mapLookup`, `mapInsert` and filtering the map -/

theorem mapLookup_insert (m : List (Pid × Process)) (k q : Pid)
    (v : Process) :
    mapLookup (mapInsert m k v) q =
      if k = q then some v else mapLookup m q := by
  by_cases h : k = q
  · simp [mapLookup, mapInsert, List.find?, h]
  · simp only [mapLookup, mapInsert, List.find?, decide_eq_true_eq, h,
      if_false, decide_False]
    rw [find?_filter_of_imp m (fun kv => decide (kv.1 = q))
      (fun kv => !decide (kv.1 = k))
      (fun kv _ hkv => by
        have hq : kv.1 = q := of_decide_eq_true hkv
        simp only [hq, Bool.not_eq_true']
        exact decide_eq_false (fun hc => h hc.symm))]

theorem mapLookup_insert_ne (m : List (Pid × Process)) (k q : Pid)
    (v : Process) (h : k ≠ q) :
    mapLookup (mapInsert m k v) q = mapLookup m q := by
  rw [mapLookup_insert, if_neg h]

theorem mapLookup_none_of_insert_none (m : List (Pid × Process))
    (k q : Pid) (v : Process)
    (h : mapLookup (mapInsert m k v) q = none) :
    mapLookup m q = none := by
  rw [mapLookup_insert] at h
  by_cases hk : k = q
  · rw [if_pos hk] at h
    exact absurd h (by simp)
  · rwa [if_neg hk] at h

theorem mapLookup_filter_eq (m : List (Pid × Process))
    (f : Pid × Process → Bool) (q : Pid)
    (h : ∀ kv ∈ m, kv.1 = q → f kv = true) :
    mapLookup (m.filter f) q = mapLookup m q := by
  simp only [mapLookup]
  rw [find?_filter_of_imp m _ f
    (fun kv hkv hp => h kv hkv (of_decide_eq_true hp))]

theorem mapLookup_filter_none (m : List (Pid × Process))
    (f : Pid × Process → Bool) (q : Pid)
    (h : ∀ kv ∈ m, kv.1 = q → f kv = false) :
    mapLookup (m.filter f) q = none := by
  simp only [mapLookup]
  rw [find?_filter_none m _ f
    (fun kv hkv hp => h kv hkv (of_decide_eq_true hp))]
  rfl

theorem mapLookup_filter_none_of_none (m : List (Pid × Process))
    (f : Pid × Process → Bool) (q : Pid)
    (h : mapLookup m q = none) :
    mapLookup (m.filter f) q = none := by
  simp only [mapLookup, Option.map_eq_none'] at h ⊢
  rw [List.find?_eq_none] at h ⊢
  exact fun x hx => h x (List.mem_of_mem_filter hx)

theorem mapLookup_filter_deleted (m : List (Pid × Process))
    (f : Pid × Process → Bool) (q : Pid) (v : Process)
    (hs : mapLookup m q = some v)
    (hn : mapLookup (m.filter f) q = none) :
    ∃ kv ∈ m, kv.1 = q ∧ f kv = false := by
  simp only [mapLookup, Option.map_eq_some', Option.map_eq_none'] at hs hn
  obtain ⟨kv0, hkv0, -⟩ := hs
  obtain ⟨x, hx, hpx, hfx⟩ := find?_some_of_filter_none m _ f kv0 hkv0 hn
  exact ⟨x, hx, of_decide_eq_true hpx, hfx⟩

/-! ## Lemmas about processes, slices and annotators -/

theorem rootSlice_eq (p : Process) :
    rootSlice p = p :: chainFrom p.parent := by
  cases p with
  | mk pd pr c pa a => rw [rootSlice, chainFrom, Process.parent]

theorem runAnnotators_fields (as : List AnnotatorF) (p : Process) :
    (runAnnotators as p).pid = p.pid ∧
    (runAnnotators as p).program = p.program ∧
    (runAnnotators as p).cred = p.cred ∧
    (runAnnotators as p).parent = p.parent := by
  induction as generalizing p with
  | nil => exact ⟨rfl, rfl, rfl, rfl⟩
  | cons f rest ih =>
      show (runAnnotators rest _).pid = p.pid ∧ _
      cases hf : f p with
      | none =>
          simpa [runAnnotators, hf] using ih p
      | some kv =>
          have := ih (Process.mk p.pid p.program p.cred p.parent
            (attachAnn p.annotations kv))
          simpa [runAnnotators, hf, Process.pid, Process.program,
            Process.cred, Process.parent] using this

/-! ## Lemmas about `step`, `prune` and the handlers -/

theorem step_dup (tr : ProcessTree) (t : Nat)
    (h : t ∈ tr.seen_timestamps) : step tr t = (tr, false) := by
  rw [step, if_pos ((memTs_iff _ _).2 h)]

theorem step_novel (tr : ProcessTree) (t : Nat)
    (h : t ∉ tr.seen_timestamps) :
    step tr t =
      (prune { tr with seen_timestamps := pushTs tr.seen_timestamps t },
       true) := by
  rw [step, if_neg]
  rw [(memTs_eq_false_iff _ _).2 h]
  simp

theorem prune_retained (tr : ProcessTree) :
    (prune tr).retained = tr.retained := rfl

theorem prune_seen (tr : ProcessTree) :
    (prune tr).seen_timestamps = tr.seen_timestamps := rfl

theorem prune_annotators (tr : ProcessTree) :
    (prune tr).annotators = tr.annotators := rfl

theorem step_retained (tr : ProcessTree) (t : Nat) :
    ((step tr t).1).retained = tr.retained := by
  rw [step]
  split <;> rfl

theorem step_snd (tr : ProcessTree) (t : Nat) :
    (step tr t).2 = true ↔ t ∉ tr.seen_timestamps := by
  constructor
  · intro h hmem
    rw [step_dup tr t hmem] at h
    simp at h
  · intro h
    rw [step_novel tr t h]

theorem handleFork_retained (tr : ProcessTree) (t : Nat) (parent : Process)
    (np : Pid) :
    (handleFork tr t parent np).retained = tr.retained := by
  rw [handleFork]
  cases hsnd : (step tr t).2
  · simpa [hsnd] using step_retained tr t
  · simp only [hsnd, if_true]
    cases hl : mapLookup (step tr t).1.map parent.pid
    · simpa [hl] using step_retained tr t
    · simpa [hl] using step_retained tr t

theorem handleExecCore_retained (tr : ProcessTree) (t : Nat) (p : Process)
    (np : Pid) (prog : Program) (c : Cred) :
    (handleExecCore tr t p np prog c).retained = tr.retained := by
  rw [handleExecCore]
  cases hsnd : (step tr t).2 <;> simpa [hsnd] using step_retained tr t

theorem handleExit_retained (tr : ProcessTree) (t : Nat) (p : Process) :
    (handleExit tr t p).retained = tr.retained := by
  rw [handleExit]
  cases hsnd : (step tr t).2 <;> simpa [hsnd] using step_retained tr t

theorem handleFork_dup (tr : ProcessTree) (t : Nat) (parent : Process)
    (np : Pid) (h : t ∈ tr.seen_timestamps) :
    handleFork tr t parent np = tr := by
  rw [handleFork]
  simp [step_dup tr t h]

theorem handleExecCore_dup (tr : ProcessTree) (t : Nat) (p : Process)
    (np : Pid) (prog : Program) (c : Cred) (h : t ∈ tr.seen_timestamps) :
    handleExecCore tr t p np prog c = tr := by
  rw [handleExecCore]
  simp [step_dup tr t h]

theorem handleExit_dup (tr : ProcessTree) (t : Nat) (p : Process)
    (h : t ∈ tr.seen_timestamps) :
    handleExit tr t p = tr := by
  rw [handleExit]
  simp [step_dup tr t h]

theorem handleFork_seen (tr : ProcessTree) (t : Nat) (parent : Process)
    (np : Pid) :
    (handleFork tr t parent np).seen_timestamps =
      ((step tr t).1).seen_timestamps := by
  rw [handleFork]
  cases h2 : (step tr t).2
  · simp [h2]
  · simp only [h2, if_true]
    cases hl : mapLookup (step tr t).1.map parent.pid <;> simp [hl]

theorem handleExecCore_seen (tr : ProcessTree) (t : Nat) (p : Process)
    (np : Pid) (prog : Program) (c : Cred) :
    (handleExecCore tr t p np prog c).seen_timestamps =
      ((step tr t).1).seen_timestamps := by
  rw [handleExecCore]
  cases h2 : (step tr t).2 <;> simp [h2]

theorem handleExit_seen (tr : ProcessTree) (t : Nat) (p : Process) :
    (handleExit tr t p).seen_timestamps =
      ((step tr t).1).seen_timestamps := by
  rw [handleExit]
  cases h2 : (step tr t).2 <;> simp [h2]

theorem handleFork_delete (tr : ProcessTree) (t : Nat) (parent : Process)
    (np : Pid) (q : Pid)
    (hdel : mapLookup (handleFork tr t parent np).map q = none) :
    mapLookup ((step tr t).1).map q = none := by
  rw [handleFork] at hdel
  cases h2 : (step tr t).2
  · rw [h2] at hdel
    simpa using hdel
  · rw [h2] at hdel
    simp only [if_true] at hdel
    cases hl : mapLookup (step tr t).1.map parent.pid
    · rw [hl] at hdel
      simpa using hdel
    · rw [hl] at hdel
      simp only at hdel
      exact mapLookup_none_of_insert_none _ _ _ _ hdel

theorem handleExecCore_delete (tr : ProcessTree) (t : Nat) (p : Process)
    (np : Pid) (prog : Program) (c : Cred) (q : Pid)
    (hdel : mapLookup (handleExecCore tr t p np prog c).map q = none) :
    mapLookup ((step tr t).1).map q = none := by
  rw [handleExecCore] at hdel
  cases h2 : (step tr t).2
  · rw [h2] at hdel
    simpa using hdel
  · rw [h2] at hdel
    simp only [if_true] at hdel
    exact mapLookup_none_of_insert_none _ _ _ _ hdel

theorem handleExit_delete (tr : ProcessTree) (t : Nat) (p : Process)
    (q : Pid)
    (hdel : mapLookup (handleExit tr t p).map q = none) :
    mapLookup ((step tr t).1).map q = none := by
  rw [handleExit] at hdel
  cases h2 : (step tr t).2
  · rw [h2] at hdel
    simpa using hdel
  · rw [h2] at hdel
    simpa using hdel

theorem applyEvt_retained (tr : ProcessTree) (e : Evt) :
    (applyEvt tr e).retained = tr.retained := by
  cases e with
  | fork t parent np => exact handleFork_retained tr t parent np
  | exec t p np prog c => exact handleExecCore_retained tr t p np prog c
  | exit t p => exact handleExit_retained tr t p

/-! ## Concrete fixtures used by witnesses and counterexamples -/

/-- A sample root process. -/
def procA : Process := Process.mk ⟨1, 0⟩ ⟨10⟩ ⟨0, 0⟩ none []

/-- A sample child of `procA`. -/
def procB : Process := Process.mk ⟨2, 0⟩ ⟨11⟩ ⟨5, 5⟩ (some procA) []

/-- A sample tree tracking `procA` and `procB`, with timestamp 5 already
recorded in the ring. -/
def sampleTree : ProcessTree :=
  { annotators := [],
    map := [(⟨1, 0⟩, procA), (⟨2, 0⟩, procB)],
    remove_at := [],
    seen_timestamps := [5],
    retained := [] }

/-! ## C2: duplicate timestamps are absorbed -/

/-- C2: re-delivering an event whose timestamp is already present in the
recent-timestamp ring is a no-op for `HandleFork`, `HandleExec` and
`HandleExit` — the entire tree state (map, annotations, pending
removals, ring) is returned unchanged — and `Step` reports `false` for
that timestamp. -/
theorem c2_duplicate_noop (tr : ProcessTree) (t : Nat)
    (parent pe p : Process) (np npe : Pid) (prog : Program) (c : Cred)
    (h : t ∈ tr.seen_timestamps) :
    step tr t = (tr, false) ∧
    handleFork tr t parent np = tr ∧
    handleExecCore tr t pe npe prog c = tr ∧
    (npe.pid = pe.pid.pid → handleExec tr t pe npe prog c = some tr) ∧
    handleExit tr t p = tr := by
  have hstep := step_dup tr t h
  have hexec : handleExecCore tr t pe npe prog c = tr := by
    rw [handleExecCore]
    simp [hstep]
  refine ⟨hstep, ?_, hexec, ?_, ?_⟩
  · rw [handleFork]
    simp [hstep]
  · intro hmatch
    rw [handleExec, if_pos hmatch, hexec]
  · rw [handleExit]
    simp [hstep]

/-- Witness for C2 at a concrete tree whose ring already holds
timestamp 5. -/
theorem c2_duplicate_noop_witness :
    step sampleTree 5 = (sampleTree, false) ∧
    handleFork sampleTree 5 procA ⟨3, 0⟩ = sampleTree ∧
    handleExecCore sampleTree 5 procB ⟨2, 1⟩ ⟨12⟩ ⟨5, 5⟩ = sampleTree ∧
    (Pid.pid ⟨2, 1⟩ = procB.pid.pid →
      handleExec sampleTree 5 procB ⟨2, 1⟩ ⟨12⟩ ⟨5, 5⟩ =
        some sampleTree) ∧
    handleExit sampleTree 5 procB = sampleTree :=
  c2_duplicate_noop sampleTree 5 procA procB procB ⟨3, 0⟩ ⟨2, 1⟩ ⟨12⟩
    ⟨5, 5⟩ (by decide)

/-! ## C5: the exec pid-number contract -/

/-- C5: `HandleExec` requires `new_pid.pid = p.pid.pid` (same OS pid
number, new version).  A call violating the precondition is signalled as
a fatal contract violation (modelled as `none`), not handled as a
recoverable path; under the precondition the fatal branch is
unreachable (the call always yields a tree). -/
theorem c5_exec_contract (tr : ProcessTree) (t : Nat) (p : Process)
    (np : Pid) (prog : Program) (c : Cred) :
    (handleExec tr t p np prog c).isSome ↔ np.pid = p.pid.pid := by
  rw [handleExec]
  by_cases h : np.pid = p.pid.pid <;> simp [h]

/-! ## C10: type-mismatched annotation entries -/

/-- C10: if the annotation map holds an entry under the type key `T`
whose stored value's dynamic type is not `T`, `GetAnnotation<T>` returns
an engaged optional holding the null pointer (`some none`), not the
absent result; the absent result (`none`) is returned exactly when no
entry exists under `T`'s key. -/
theorem c10_get_annotation_cast (p : Process) (T : Nat) (e : Nat × Ann) :
    (p.annotations.find? (fun kv => decide (kv.1 = T)) = some e →
      e.2.dynTy ≠ T → getAnnotationValue T p = some none) ∧
    (p.annotations.find? (fun kv => decide (kv.1 = T)) = none →
      getAnnotationValue T p = none) := by
  constructor
  · intro hf hty
    rw [getAnnotationValue, hf]
    simp [hty]
  · intro hf
    rw [getAnnotationValue, hf]

/-- Witness for C10: a process holding, under type key 3, a value of
dynamic type 5 — the query for 3 yields an engaged null, and the query
for the unused key 4 yields absent. -/
theorem c10_get_annotation_cast_witness :
    getAnnotationValue 3
      (Process.mk ⟨3, 0⟩ ⟨1⟩ ⟨0, 0⟩ none [(3, ⟨5, 9⟩)]) = some none ∧
    getAnnotationValue 4
      (Process.mk ⟨3, 0⟩ ⟨1⟩ ⟨0, 0⟩ none [(3, ⟨5, 9⟩)]) = none := by
  constructor
  · exact (c10_get_annotation_cast
      (Process.mk ⟨3, 0⟩ ⟨1⟩ ⟨0, 0⟩ none [(3, ⟨5, 9⟩)]) 3 (3, ⟨5, 9⟩)).1
      rfl (by decide)
  · exact (c10_get_annotation_cast
      (Process.mk ⟨3, 0⟩ ⟨1⟩ ⟨0, 0⟩ none [(3, ⟨5, 9⟩)]) 4 (3, ⟨5, 9⟩)).2
      rfl

/-! ## C4: exec preserves lineage -/

/-- A process carrying an annotation, used to refute the claim that exec
changes only pid/program/cred of the head entry. -/
def c4proc : Process := Process.mk ⟨4, 0⟩ ⟨20⟩ ⟨1, 1⟩ none [(7, ⟨7, 42⟩)]

/-- A tree tracking `c4proc`. -/
def c4tree : ProcessTree :=
  { annotators := [],
    map := [(⟨4, 0⟩, c4proc)],
    remove_at := [],
    seen_timestamps := [],
    retained := [] }

/-- Counterexample to C4 as stated: after a novel-timestamp exec of an
annotated process, the successor installed under the new pid differs
from `p` also in its annotation set (it is reset to empty), so it is not
the case that only the head entry's pid, program and cred differ. -/
theorem c4_counterexample :
    mapLookup (handleExecCore c4tree 9 c4proc ⟨4, 1⟩ ⟨21⟩ ⟨2, 2⟩).map
        ⟨4, 1⟩ =
      some (Process.mk ⟨4, 1⟩ ⟨21⟩ ⟨2, 2⟩ none []) ∧
    (rootSlice (Process.mk ⟨4, 1⟩ ⟨21⟩ ⟨2, 2⟩ none [])).head? =
      some (Process.mk ⟨4, 1⟩ ⟨21⟩ ⟨2, 2⟩ none []) ∧
    Process.annotations (Process.mk ⟨4, 1⟩ ⟨21⟩ ⟨2, 2⟩ none []) ≠
      Process.annotations c4proc := by
  refine ⟨rfl, ?_, by decide⟩
  rw [rootSlice_eq]
  rfl

/-- C4 (amended): for a novel-timestamp `HandleExec` call obeying the
pid-number contract, the successor installed under `new_pid` carries the
same parent reference as `p`, so `RootSlice` of the successor with its
head removed equals `RootSlice(p)` with its head removed; the head
entry's pid, program and cred are the new values, and its annotation set
is reset to empty (annotations are not copied across exec, so they may
also differ from `p`'s). -/
theorem c4_exec_lineage (tr : ProcessTree) (t : Nat) (p : Process)
    (np : Pid) (prog : Program) (c : Cred)
    (hmatch : np.pid = p.pid.pid) (hnovel : t ∉ tr.seen_timestamps) :
    ∃ tr' succ,
      handleExec tr t p np prog c = some tr' ∧
      mapLookup tr'.map np = some succ ∧
      succ.parent = p.parent ∧
      (rootSlice succ).tail = (rootSlice p).tail ∧
      succ.pid = np ∧ succ.program = prog ∧ succ.cred = c ∧
      succ.annotations = [] := by
  have h2 : (step tr t).2 = true := (step_snd tr t).2 hnovel
  refine ⟨handleExecCore tr t p np prog c,
    Process.mk np prog c p.parent [], ?_, ?_, rfl, ?_, rfl, rfl, rfl, rfl⟩
  · rw [handleExec, if_pos hmatch]
  · rw [handleExecCore]
    simp only [h2, if_true]
    rw [mapLookup_insert, if_pos rfl]
  · rw [rootSlice_eq, rootSlice_eq]
    rfl

/-- Witness for C4 (amended) at the concrete exec of `c4proc`. -/
theorem c4_exec_lineage_witness :
    ∃ tr' succ,
      handleExec c4tree 9 c4proc ⟨4, 1⟩ ⟨21⟩ ⟨2, 2⟩ = some tr' ∧
      mapLookup tr'.map ⟨4, 1⟩ = some succ ∧
      succ.parent = c4proc.parent ∧
      (rootSlice succ).tail = (rootSlice c4proc).tail ∧
      succ.pid = ⟨4, 1⟩ ∧ succ.program = ⟨21⟩ ∧ succ.cred = ⟨2, 2⟩ ∧
      succ.annotations = [] :=
  c4_exec_lineage c4tree 9 c4proc ⟨4, 1⟩ ⟨21⟩ ⟨2, 2⟩ (by decide) (by decide)

/-! ## C6: fork behavior -/

/-- A process whose removal is pending at timestamp 100. -/
def c6victim : Process := Process.mk ⟨6, 0⟩ ⟨30⟩ ⟨3, 3⟩ none []

/-- A tree with a full timestamp ring `[100..131]` and a pending removal
at 100 whose eviction will be triggered by the next novel event. -/
def c6tree : ProcessTree :=
  { annotators := [],
    map := [(⟨6, 0⟩, c6victim)],
    remove_at := [(100, ⟨6, 0⟩)],
    seen_timestamps := (List.range 32).map (fun i => 100 + i),
    retained := [] }

/-- Counterexample to C6 as stated: a novel-timestamp `HandleFork` whose
parent is untracked is claimed to leave the map unchanged, but recording
the timestamp evicts timestamp 100 from the full ring, which makes the
pending removal of pid 6 eligible, and the lazy sweep deletes it — the
map does change. -/
theorem c6_counterexample :
    mapLookup c6tree.map procA.pid = none ∧
    200 ∉ c6tree.seen_timestamps ∧
    (handleFork c6tree 200 procA ⟨9, 0⟩).map ≠ c6tree.map := by
  refine ⟨rfl, by decide, ?_⟩
  intro h
  have hlen := congrArg List.length h
  rw [show ((handleFork c6tree 200 procA ⟨9, 0⟩).map).length = 0 from by
    decide] at hlen
  exact absurd hlen (by decide)

/-- C6 (amended): for a novel-timestamp `HandleFork(t, parent, new_pid)`
call, the timestamp is first recorded (running the lazy removal sweep);
if the resulting map tracks a node for parent's identity, a child is
inserted under `new_pid` with parent's program and cred and that node as
its parent reference (registered annotators may then attach
annotations); if not, the call makes no change beyond the recording of
the timestamp and its lazy sweep. -/
theorem c6_fork_behavior (tr : ProcessTree) (t : Nat) (parent : Process)
    (np : Pid) (hnovel : t ∉ tr.seen_timestamps) :
    (∀ pnode, mapLookup (step tr t).1.map parent.pid = some pnode →
      ∃ child,
        mapLookup (handleFork tr t parent np).map np = some child ∧
        child.pid = np ∧ child.program = parent.program ∧
        child.cred = parent.cred ∧ child.parent = some pnode) ∧
    (mapLookup (step tr t).1.map parent.pid = none →
      handleFork tr t parent np = (step tr t).1) := by
  have h2 : (step tr t).2 = true := (step_snd tr t).2 hnovel
  constructor
  · intro pnode hp
    rw [handleFork]
    simp only [h2, if_true, hp]
    obtain ⟨hpid, hprog, hcred, hpar⟩ := runAnnotators_fields
      (step tr t).1.annotators
      (Process.mk np parent.program parent.cred (some pnode) [])
    refine ⟨runAnnotators (step tr t).1.annotators
      (Process.mk np parent.program parent.cred (some pnode) []),
      ?_, ?_, ?_, ?_, ?_⟩
    · rw [mapLookup_insert, if_pos rfl]
    · rw [hpid]
      rfl
    · rw [hprog]
      rfl
    · rw [hcred]
      rfl
    · rw [hpar]
      rfl
  · intro hp
    rw [handleFork]
    simp only [h2, if_true, hp]

/-- Witness for C6 (amended), covering both the tracked-parent and the
untracked-parent branches on concrete trees. -/
theorem c6_fork_behavior_witness :
    (∃ child,
      mapLookup (handleFork sampleTree 7 procA ⟨3, 0⟩).map ⟨3, 0⟩ =
        some child ∧
      child.pid = ⟨3, 0⟩ ∧ child.program = procA.program ∧
      child.cred = procA.cred ∧ child.parent = some procA) ∧
    handleFork sampleTree 7 (Process.mk ⟨8, 0⟩ ⟨1⟩ ⟨0, 0⟩ none []) ⟨3, 0⟩ =
      (step sampleTree 7).1 := by
  constructor
  · exact (c6_fork_behavior sampleTree 7 procA ⟨3, 0⟩ (by decide)).1
      procA rfl
  · exact (c6_fork_behavior sampleTree 7
      (Process.mk ⟨8, 0⟩ ⟨1⟩ ⟨0, 0⟩ none []) ⟨3, 0⟩ (by decide)).2 rfl

/-! ## Annotation map lemmas shared by the C7 development -/

theorem getAnnotationValue_eq (T : Nat) (p : Process) :
    getAnnotationValue T p =
      match p.annotations.find? (fun e => decide (e.1 = T)) with
      | none => none
      | some e => some (if e.2.dynTy = T then some e.2 else none) := rfl

theorem find?_attachAnn_ne (anns : List (Nat × Ann)) (kv : Nat × Ann)
    (C : Nat) (h : C ≠ kv.1) :
    (attachAnn anns kv).find? (fun e => decide (e.1 = C)) =
      anns.find? (fun e => decide (e.1 = C)) := by
  rw [attachAnn]
  rw [List.find?_cons_of_neg _ (by
    simp only [decide_eq_true_eq]
    exact fun hc => h hc.symm)]
  exact find?_filter_of_imp anns _ _ (fun e _ hpe => by
    have he : e.1 = C := of_decide_eq_true hpe
    simp only [he, Bool.not_eq_true']
    exact decide_eq_false (fun hc => h hc))

theorem find?_attachAnn_eq (anns : List (Nat × Ann)) (kv : Nat × Ann)
    (C : Nat) (h : kv.1 = C) :
    (attachAnn anns kv).find? (fun e => decide (e.1 = C)) =
      some (kv.1, kv.2) := by
  rw [attachAnn]
  exact List.find?_cons_of_pos _ (by simp [h])

theorem annotate_lookup (tr : ProcessTree) (p : Process) (a : Ann)
    (node : Process) (hin : mapLookup tr.map p.pid = some node) :
    mapLookup (annotateProcess tr p a).map p.pid =
      some (Process.mk node.pid node.program node.cred node.parent
        (attachAnn node.annotations (a.dynTy, a))) := by
  simp only [annotateProcess, hin]
  rw [mapLookup_insert, if_pos rfl]

/-! ## C7: annotation attach and query -/

/-- A process already carrying an annotation of type 2. -/
def c7node : Process := Process.mk ⟨7, 0⟩ ⟨40⟩ ⟨4, 4⟩ none [(2, ⟨2, 9⟩)]

/-- A tree tracking `c7node`. -/
def c7tree : ProcessTree :=
  { annotators := [],
    map := [(⟨7, 0⟩, c7node)],
    remove_at := [],
    seen_timestamps := [],
    retained := [] }

/-- Counterexample to C7 as stated: after annotating `c7node` (which
already carries an annotation of type 2) with a value of type 1, the
query for the distinct type 2 does not return absent — the prior type-2
annotation is still there. -/
theorem c7_counterexample :
    mapLookup (annotateProcess c7tree c7node ⟨1, 4⟩).map ⟨7, 0⟩ =
      some (Process.mk ⟨7, 0⟩ ⟨40⟩ ⟨4, 4⟩ none
        [(1, ⟨1, 4⟩), (2, ⟨2, 9⟩)]) ∧
    getAnnotationValue 2
      (Process.mk ⟨7, 0⟩ ⟨40⟩ ⟨4, 4⟩ none [(1, ⟨1, 4⟩), (2, ⟨2, 9⟩)]) ≠
      none := by
  exact ⟨rfl, by decide⟩

/-- C7 (amended): annotating a tracked process `p` with a value of
concrete type `A` leaves the query for any distinct type `B` unchanged
(in particular it is absent iff `p` carried no `B`-annotation before);
the query for `A` returns the attached value; re-annotating with a new
value of type `A` overwrites the prior one; and annotating a process no
longer in the map is a silent no-op. -/
theorem c7_annotation_behavior (tr : ProcessTree) (p : Process)
    (a a2 : Ann) (B : Nat) (node : Process)
    (hin : mapLookup tr.map p.pid = some node) :
    (∃ node',
      mapLookup (annotateProcess tr p a).map p.pid = some node' ∧
      (B ≠ a.dynTy →
        getAnnotationValue B node' = getAnnotationValue B node) ∧
      getAnnotationValue a.dynTy node' = some (some a) ∧
      (a2.dynTy = a.dynTy →
        ∃ node'',
          mapLookup (annotateProcess (annotateProcess tr p a) p a2).map
            p.pid = some node'' ∧
          getAnnotationValue a.dynTy node'' = some (some a2))) ∧
    (∀ tr2 p2 a3, mapLookup tr2.map p2.pid = none →
      annotateProcess tr2 p2 a3 = tr2) := by
  obtain ⟨npd, npr, nc, npa, nan⟩ := node
  constructor
  · have hlook := annotate_lookup tr p a (Process.mk npd npr nc npa nan) hin
    refine ⟨_, hlook, ?_, ?_, ?_⟩
    · intro hB
      rw [getAnnotationValue_eq, getAnnotationValue_eq]
      simp only [Process.annotations]
      rw [find?_attachAnn_ne nan (a.dynTy, a) B hB]
    · rw [getAnnotationValue_eq]
      simp only [Process.annotations]
      rw [find?_attachAnn_eq nan (a.dynTy, a) a.dynTy rfl]
      simp
    · intro ha2
      have hlook2 := annotate_lookup (annotateProcess tr p a) p a2 _ hlook
      refine ⟨_, hlook2, ?_⟩
      rw [getAnnotationValue_eq]
      simp only [Process.annotations]
      rw [find?_attachAnn_eq (attachAnn nan (a.dynTy, a))
        (a2.dynTy, a2) a.dynTy ha2]
      simp [ha2]
  · intro tr2 p2 a3 h
    simp only [annotateProcess, h]

/-- Witness for C7 (amended) on `c7tree`, with the fresh type 3 as the
distinct type and a type-1 re-annotation. -/
theorem c7_annotation_behavior_witness :
    (∃ node',
      mapLookup (annotateProcess c7tree c7node ⟨1, 4⟩).map c7node.pid =
        some node' ∧
      ((3 : Nat) ≠ Ann.dynTy ⟨1, 4⟩ →
        getAnnotationValue 3 node' = getAnnotationValue 3 c7node) ∧
      getAnnotationValue (Ann.dynTy ⟨1, 4⟩) node' = some (some ⟨1, 4⟩) ∧
      (Ann.dynTy ⟨1, 8⟩ = Ann.dynTy ⟨1, 4⟩ →
        ∃ node'',
          mapLookup
            (annotateProcess (annotateProcess c7tree c7node ⟨1, 4⟩)
              c7node ⟨1, 8⟩).map c7node.pid = some node'' ∧
          getAnnotationValue (Ann.dynTy ⟨1, 4⟩) node'' =
            some (some ⟨1, 8⟩))) ∧
    (∀ tr2 p2 a3, mapLookup tr2.map p2.pid = none →
      annotateProcess tr2 p2 a3 = tr2) :=
  c7_annotation_behavior c7tree c7node ⟨1, 4⟩ ⟨1, 8⟩ 3 c7node rfl

/-! ## C8: ProcessToken retention balance -/

/-- An empty tree for the token lifecycle scenario. -/
def c8tree0 : ProcessTree :=
  { annotators := [], map := [], remove_at := [],
    seen_timestamps := [], retained := [] }

/-- Token `a`: retains pid (1,0) once. -/
def c8state1 : ProcessTree × ProcessToken := tokenCreate c8tree0 [⟨1, 0⟩]

/-- Token `b`: retains pid (1,0) a second time. -/
def c8state2 : ProcessTree × ProcessToken :=
  tokenCreate c8state1.1 [⟨1, 0⟩]

/-- `a = std::move(b)`: the target's previously retained pid list is
overwritten with no release; the source is left moved-from. -/
def c8assign : ProcessToken × ProcessToken :=
  tokenMoveAssign c8state1.2 c8state2.2

/-- The tree after both surviving tokens are destroyed. -/
def c8final : ProcessTree :=
  tokenDestroy (tokenDestroy c8state2.1 c8assign.1) c8assign.2

/-- C8: evaluation of the failing lifecycle.  Two tokens each retain pid
(1,0) (count 2).  Move-assigning token `b` onto token `a` drops `a`'s
previously retained pid without a release, so after both tokens are
destroyed the retention count is still 1 — the retention acquired by
`a`'s construction is never balanced by a release, contradicting the
claimed retain/release balance over the token lifetime. -/
theorem c8_retention_leak :
    retainCount c8state2.1.retained ⟨1, 0⟩ = 2 ∧
    retainCount c8final.retained ⟨1, 0⟩ = 1 := by
  exact ⟨by decide, by decide⟩

/-! ## C9: tree construction -/

/-- C9: `CreateTree` validates the annotator set and performs the
initial backfill; if validation fails or the OS enumeration backing
backfill fails, a descriptive error is returned and no tree instance is
yielded; on success a tree instance is returned. -/
theorem c9_create_tree (validate : List AnnotatorF → Bool)
    (anns : List AnnotatorF) (listing : Except String (List Process)) :
    (validate anns = false →
      (∃ msg, createTree validate anns listing = .error msg) ∧
      ∀ tree, createTree validate anns listing ≠ .ok tree) ∧
    (∀ e, listing = .error e → validate anns = true →
      createTree validate anns listing = .error e ∧
      ∀ tree, createTree validate anns listing ≠ .ok tree) ∧
    (∀ procs, listing = .ok procs → validate anns = true →
      ∃ tree, createTree validate anns listing = .ok tree) := by
  refine ⟨?_, ?_, ?_⟩
  · intro hv
    refine ⟨⟨"invalid annotator set", ?_⟩, fun tree h => ?_⟩
    · simp [createTree, hv]
    · simp [createTree, hv] at h
  · intro e he hv
    refine ⟨?_, fun tree h => ?_⟩
    · simp [createTree, hv, he]
    · simp [createTree, hv, he] at h
  · intro procs hl hv
    exact ⟨backfill anns procs, by simp [createTree, hv, hl]⟩

/-- Witness for C9: a failing validator, a failing enumeration, and a
successful construction, each at concrete inputs. -/
theorem c9_create_tree_witness :
    ((∃ msg, createTree (fun _ => false) [] (Except.ok []) = .error msg) ∧
      ∀ tree, createTree (fun _ => false) [] (Except.ok []) ≠ .ok tree) ∧
    (createTree (fun _ => true) [] (Except.error "enumeration failed") =
        .error "enumeration failed" ∧
      ∀ tree,
        createTree (fun _ => true) [] (Except.error "enumeration failed") ≠
          .ok tree) ∧
    (∃ tree, createTree (fun _ => true) [] (Except.ok []) = .ok tree) :=
  ⟨(c9_create_tree (fun _ => false) [] (Except.ok [])).1 rfl,
   (c9_create_tree (fun _ => true) []
     (Except.error "enumeration failed")).2.1 "enumeration failed" rfl rfl,
   (c9_create_tree (fun _ => true) [] (Except.ok [])).2.2 [] rfl rfl⟩

/-! ## C3: deferred removal discipline -/

theorem prune_delete_reason (tr : ProcessTree) (t : Nat) (q : Pid)
    (v : Process)
    (_hmem : (t, q) ∈ tr.remove_at)
    (huniq : ∀ e ∈ tr.remove_at, e.2 = q → e = (t, q))
    (hsome : mapLookup tr.map q = some v)
    (hdel : mapLookup (prune tr).map q = none) :
    memTs tr.seen_timestamps t = false ∧
    retainCount tr.retained q = 0 := by
  simp only [prune] at hdel
  obtain ⟨kv, hkvmem, hkv1, hkvf⟩ :=
    mapLookup_filter_deleted tr.map _ q v hsome hdel
  have hany : tr.remove_at.any (fun e =>
      eligibleB tr.seen_timestamps tr.retained e && decide (e.2 = kv.1)) =
      true := by
    simpa using hkvf
  rw [List.any_eq_true] at hany
  obtain ⟨e, hemem, he⟩ := hany
  rw [Bool.and_eq_true] at he
  obtain ⟨helig, heq⟩ := he
  have he2 : e.2 = q := by
    rw [of_decide_eq_true heq, hkv1]
  have heq2 : e = (t, q) := huniq e hemem he2
  rw [heq2] at helig
  rw [eligibleB, Bool.and_eq_true] at helig
  obtain ⟨h1, h2⟩ := helig
  exact ⟨by simpa using h1, by simpa using h2⟩

theorem step_delete_reason (tr : ProcessTree) (u t : Nat) (q : Pid)
    (v : Process)
    (hmem : (t, q) ∈ tr.remove_at)
    (huniq : ∀ e ∈ tr.remove_at, e.2 = q → e = (t, q))
    (hsome : mapLookup tr.map q = some v)
    (hdel : mapLookup ((step tr u).1).map q = none) :
    t ∉ ((step tr u).1).seen_timestamps ∧
    retainCount tr.retained q = 0 := by
  by_cases hc : u ∈ tr.seen_timestamps
  · rw [step_dup tr u hc] at hdel
    rw [hsome] at hdel
    exact absurd hdel (by simp)
  · rw [step_novel tr u hc] at hdel ⊢
    obtain ⟨h1, h2⟩ := prune_delete_reason
      { tr with seen_timestamps := pushTs tr.seen_timestamps u }
      t q v hmem huniq hsome hdel
    refine ⟨?_, h2⟩
    rw [prune_seen]
    exact (memTs_eq_false_iff _ _).1 h1

/-- C3: a pid with a pending removal entry `(t, pid)` (its only pending
entry) is physically deleted from the map by a tree operation (`Step`,
fork, exec, exit, retain or release) only when, at that operation, `t`
is no longer present in the recent-timestamp ring and the retention
count of the pid is zero. -/
theorem c3_deferred_removal (tr : ProcessTree) (o : Op) (t : Nat)
    (q : Pid) (v : Process)
    (hmem : (t, q) ∈ tr.remove_at)
    (huniq : ∀ e ∈ tr.remove_at, e.2 = q → e = (t, q))
    (hsome : mapLookup tr.map q = some v)
    (hdel : mapLookup (applyOp tr o).map q = none) :
    t ∉ (applyOp tr o).seen_timestamps ∧
    retainCount (applyOp tr o).retained q = 0 := by
  cases o with
  | step u =>
      obtain ⟨h1, h2⟩ := step_delete_reason tr u t q v hmem huniq hsome hdel
      exact ⟨h1, by rw [applyOp, step_retained]; exact h2⟩
  | fork u parent np =>
      have hdel' := handleFork_delete tr u parent np q hdel
      obtain ⟨h1, h2⟩ := step_delete_reason tr u t q v hmem huniq hsome hdel'
      constructor
      · rw [applyOp, handleFork_seen]
        exact h1
      · rw [applyOp, handleFork_retained]
        exact h2
  | exec u p np prog c =>
      have hdel' := handleExecCore_delete tr u p np prog c q hdel
      obtain ⟨h1, h2⟩ := step_delete_reason tr u t q v hmem huniq hsome hdel'
      constructor
      · rw [applyOp, handleExecCore_seen]
        exact h1
      · rw [applyOp, handleExecCore_retained]
        exact h2
  | exit u p =>
      have hdel' := handleExit_delete tr u p q hdel
      obtain ⟨h1, h2⟩ := step_delete_reason tr u t q v hmem huniq hsome hdel'
      constructor
      · rw [applyOp, handleExit_seen]
        exact h1
      · rw [applyOp, handleExit_retained]
        exact h2
  | retain pids =>
      simp only [applyOp, retainProcess] at hdel
      rw [hsome] at hdel
      exact absurd hdel (by simp)
  | release pids =>
      simp only [applyOp, releaseProcess] at hdel
      obtain ⟨h1, h2⟩ := prune_delete_reason
        { tr with retained := releasePids tr.retained pids }
        t q v hmem huniq hsome hdel
      constructor
      · simp only [applyOp, releaseProcess, prune_seen]
        exact (memTs_eq_false_iff _ _).1 h1
      · simp only [applyOp, releaseProcess, prune_retained]
        exact h2

/-- A tree in which pid (6,0) has an aged-out pending removal at
timestamp 5 that the next release sweep will delete. -/
def c3tree : ProcessTree :=
  { annotators := [],
    map := [(⟨6, 0⟩, c6victim)],
    remove_at := [(5, ⟨6, 0⟩)],
    seen_timestamps := [],
    retained := [] }

/-- Witness for C3: a release sweep on `c3tree` deletes pid (6,0), and
indeed its removal timestamp is out of the ring and its retention is
zero. -/
theorem c3_deferred_removal_witness :
    5 ∉ (applyOp c3tree (Op.release [])).seen_timestamps ∧
    retainCount (applyOp c3tree (Op.release [])).retained ⟨6, 0⟩ = 0 :=
  c3_deferred_removal c3tree (Op.release []) 5 ⟨6, 0⟩ c6victim
    (by decide) (by decide) rfl rfl

/-! ## C1: exit aging — ring and pruning lemmas -/

theorem eligibleB_false_of_mem (seen : List Nat) (r : List Pid) (t : Nat)
    (q : Pid) (h : t ∈ seen) : eligibleB seen r (t, q) = false := by
  rw [eligibleB]
  rw [show memTs seen (t, q).1 = true from (memTs_iff _ _).2 h]
  rfl

theorem eligibleB_true_of (seen : List Nat) (r : List Pid) (t : Nat)
    (q : Pid) (h1 : t ∉ seen) (h2 : retainCount r q = 0) :
    eligibleB seen r (t, q) = true := by
  rw [eligibleB]
  rw [show memTs seen (t, q).1 = false from (memTs_eq_false_iff _ _).2 h1]
  simp only [Bool.not_false, Bool.true_and]
  rw [show retainCount r (t, q).2 = 0 from h2]
  rfl

theorem ra_entry_unique (ra : List (Nat × Pid)) (t : Nat) (q : Pid)
    (hra : ra.filter (fun kv => decide (kv.2 = q)) = [(t, q)]) :
    ∀ e ∈ ra, e.2 = q → e = (t, q) := by
  intro e he heq
  have hmem : e ∈ ra.filter (fun kv => decide (kv.2 = q)) :=
    List.mem_filter.2 ⟨he, by simp [heq]⟩
  rw [hra] at hmem
  simpa using hmem

theorem ra_entry_mem (ra : List (Nat × Pid)) (t : Nat) (q : Pid)
    (hra : ra.filter (fun kv => decide (kv.2 = q)) = [(t, q)]) :
    (t, q) ∈ ra := by
  have : (t, q) ∈ ra.filter (fun kv => decide (kv.2 = q)) := by
    rw [hra]
    exact List.mem_singleton.2 rfl
  exact List.mem_of_mem_filter this

/-- While the removal timestamp of `q`'s unique pending entry is still
in the ring, the sweep keeps `q`'s map entry and its pending entry. -/
theorem prune_keeps_q (tr2 : ProcessTree) (t : Nat) (q : Pid)
    (node : Process)
    (hra : tr2.remove_at.filter (fun kv => decide (kv.2 = q)) = [(t, q)])
    (ht : t ∈ tr2.seen_timestamps)
    (hmap : mapLookup tr2.map q = some node) :
    mapLookup (prune tr2).map q = some node ∧
    (prune tr2).remove_at.filter (fun kv => decide (kv.2 = q)) =
      [(t, q)] := by
  have huniq := ra_entry_unique tr2.remove_at t q hra
  have hany : ∀ kv ∈ tr2.map, kv.1 = q →
      (tr2.remove_at.any (fun e =>
        eligibleB tr2.seen_timestamps tr2.retained e &&
          decide (e.2 = kv.1))) = false := by
    intro kv _ hkv
    rw [← Bool.not_eq_true, List.any_eq_true]
    rintro ⟨e, he, hx⟩
    rw [Bool.and_eq_true] at hx
    have he2 : e.2 = q := by
      rw [of_decide_eq_true hx.2, hkv]
    have heq : e = (t, q) := huniq e he he2
    rw [heq] at hx
    rw [eligibleB_false_of_mem tr2.seen_timestamps tr2.retained t q ht]
      at hx
    exact absurd hx.1 (by simp)
  constructor
  · simp only [prune]
    rw [mapLookup_filter_eq tr2.map _ q
      (fun kv hm hk => by rw [hany kv hm hk]; rfl)]
    exact hmap
  · simp only [prune]
    rw [filter_swap, hra]
    simp [List.filter_cons,
      eligibleB_false_of_mem tr2.seen_timestamps tr2.retained t q ht]

/-- Recording a novel timestamp while `q`'s pending entry is not yet
due: the ring decomposition shifts by one position, and the map entry,
retention and pending entry of `q` are all preserved. -/
theorem step_preserves (s : ProcessTree) (m t : Nat) (q : Pid)
    (node : Process) (A B : List Nat)
    (hseen : s.seen_timestamps = A ++ t :: B)
    (hnd : (A ++ t :: B).Nodup)
    (hlen : A.length + (B.length + 1) ≤ 32)
    (hm : m ∉ A ++ t :: B)
    (hmap : mapLookup s.map q = some node)
    (hra : s.remove_at.filter (fun kv => decide (kv.2 = q)) = [(t, q)])
    (hsurv : A.length + (B.length + 1) < 32 ∨ A ≠ []) :
    (step s m).2 = true ∧
    ∃ A', (step s m).1.seen_timestamps = A' ++ t :: (B ++ [m]) ∧
      (A' ++ t :: (B ++ [m])).Nodup ∧
      A'.length + ((B ++ [m]).length + 1) ≤ 32 ∧
      (∀ u ∈ A' ++ t :: (B ++ [m]), u = m ∨ u ∈ A ++ t :: B) ∧
      mapLookup (step s m).1.map q = some node ∧
      (step s m).1.remove_at.filter (fun kv => decide (kv.2 = q)) =
        [(t, q)] := by
  have hmem : m ∉ s.seen_timestamps := by
    rw [hseen]
    exact hm
  have hstep := step_novel s m hmem
  have hnd2 : ((A ++ t :: B) ++ [m]).Nodup := by
    rw [List.nodup_append]
    exact ⟨hnd, List.nodup_singleton m,
      fun u hu hm' => hm (by rwa [List.mem_singleton.1 hm'] at hu)⟩
  have hlen_ring : (A ++ t :: B).length = A.length + B.length + 1 := by
    simp only [List.length_append, List.length_cons]
    omega
  -- find the new decomposition of the ring
  have hpush : ∃ A', pushTs s.seen_timestamps m = A' ++ t :: (B ++ [m]) ∧
      (A' ++ t :: (B ++ [m])).Nodup ∧
      A'.length + ((B ++ [m]).length + 1) ≤ 32 ∧
      (∀ u ∈ A' ++ t :: (B ++ [m]), u = m ∨ u ∈ A ++ t :: B) := by
    by_cases hlt : (A ++ t :: B).length < 32
    · refine ⟨A, ?_, ?_, ?_, ?_⟩
      · rw [hseen, pushTs, if_pos hlt]
        simp
      · have heq : A ++ t :: (B ++ [m]) = (A ++ t :: B) ++ [m] := by simp
        rw [heq]
        exact hnd2
      · rw [hlen_ring] at hlt
        simp only [List.length_append, List.length_cons, List.length_nil]
        omega
      · intro u hu
        have hu2 : u ∈ (A ++ t :: B) ++ [m] := by
          simpa [List.mem_append, List.mem_cons] using hu
        rcases List.mem_append.1 hu2 with h | h
        · exact Or.inr h
        · exact Or.inl (List.mem_singleton.1 h)
    · have hA : A ≠ [] := by
        rcases hsurv with h | h
        · exfalso
          rw [hlen_ring] at hlt
          omega
        · exact h
      obtain ⟨a, A'', hAeq⟩ := List.exists_cons_of_ne_nil hA
      subst hAeq
      refine ⟨A'', ?_, ?_, ?_, ?_⟩
      · rw [hseen, pushTs, if_neg hlt]
        simp
      · have heq : A'' ++ t :: (B ++ [m]) =
            ((A'' ++ t :: B) ++ [m] : List Nat) := by simp
        rw [heq]
        have hnd3 := hnd2
        rw [show ((a :: A'') ++ t :: B) ++ [m] =
          a :: ((A'' ++ t :: B) ++ [m]) from by simp] at hnd3
        exact hnd3.of_cons
      · have hle : (a :: A'').length + (B.length + 1) ≤ 32 := hlen
        simp only [List.length_append, List.length_cons, List.length_nil]
          at hle ⊢
        omega
      · intro u hu
        have hu2 : u ∈ (A'' ++ t :: B) ++ [m] := by
          simpa [List.mem_append, List.mem_cons] using hu
        rcases List.mem_append.1 hu2 with h | h
        · refine Or.inr ?_
          rcases List.mem_append.1 h with h' | h'
          · exact List.mem_append.2 (Or.inl (List.mem_cons_of_mem a h'))
          · exact List.mem_append.2 (Or.inr h')
        · exact Or.inl (List.mem_singleton.1 h)
  obtain ⟨A', hps, hnd', hlen', hsub'⟩ := hpush
  have ht_in : t ∈ pushTs s.seen_timestamps m := by
    rw [hps]
    exact List.mem_append.2 (Or.inr (List.mem_cons_self _ _))
  have hkeep := prune_keeps_q
    { s with seen_timestamps := pushTs s.seen_timestamps m }
    t q node hra ht_in hmap
  refine ⟨by rw [hstep], A', ?_, hnd', hlen', hsub', ?_, ?_⟩
  · rw [hstep]
    simpa [prune_seen] using hps
  · rw [hstep]
    exact hkeep.1
  · rw [hstep]
    exact hkeep.2

theorem applyEvt_seen (s : ProcessTree) (e : Evt) :
    (applyEvt s e).seen_timestamps =
      ((step s (Evt.timestamp e)).1).seen_timestamps := by
  cases e with
  | fork u parent np => exact handleFork_seen s u parent np
  | exec u p np prog c => exact handleExecCore_seen s u p np prog c
  | exit u p => exact handleExit_seen s u p

theorem applyEvt_map_lookup_ne (s : ProcessTree) (e : Evt) (q : Pid)
    (htouch : ¬ Evt.touches e q) :
    mapLookup (applyEvt s e).map q =
      mapLookup ((step s (Evt.timestamp e)).1).map q := by
  cases e with
  | fork u parent np =>
      have hnp : np ≠ q := htouch
      simp only [applyEvt, Evt.timestamp]
      rw [handleFork]
      cases h2 : (step s u).2
      · simp [h2]
      · simp only [h2, if_true]
        cases hl : mapLookup (step s u).1.map parent.pid
        · rfl
        · exact mapLookup_insert_ne _ _ _ _ hnp
  | exec u p np prog c =>
      have hnp : np ≠ q := fun h => htouch (Or.inl h)
      simp only [applyEvt, Evt.timestamp]
      rw [handleExecCore]
      cases h2 : (step s u).2
      · simp [h2]
      · simp only [h2, if_true]
        exact mapLookup_insert_ne _ _ _ _ hnp
  | exit u p =>
      simp only [applyEvt, Evt.timestamp]
      rw [handleExit]
      cases h2 : (step s u).2 <;> simp [h2]

theorem applyEvt_remove_at_filter (s : ProcessTree) (e : Evt) (q : Pid)
    (htouch : ¬ Evt.touches e q) :
    (applyEvt s e).remove_at.filter (fun kv => decide (kv.2 = q)) =
      ((step s (Evt.timestamp e)).1).remove_at.filter
        (fun kv => decide (kv.2 = q)) := by
  cases e with
  | fork u parent np =>
      simp only [applyEvt, Evt.timestamp]
      rw [handleFork]
      cases h2 : (step s u).2
      · simp [h2]
      · simp only [h2, if_true]
        cases hl : mapLookup (step s u).1.map parent.pid
        · rfl
        · rfl
  | exec u p np prog c =>
      have hppid : p.pid ≠ q := fun h => htouch (Or.inr h)
      simp only [applyEvt, Evt.timestamp]
      rw [handleExecCore]
      cases h2 : (step s u).2
      · simp [h2]
      · simp only [h2, if_true]
        rw [List.filter_append]
        simp [List.filter_cons, hppid]
  | exit u p =>
      have hppid : p.pid ≠ q := htouch
      simp only [applyEvt, Evt.timestamp]
      rw [handleExit]
      cases h2 : (step s u).2
      · simp [h2]
      · simp only [h2, if_true]
        rw [List.filter_append]
        simp [List.filter_cons, hppid]

theorem step_absent (s : ProcessTree) (u : Nat) (q : Pid)
    (h : mapLookup s.map q = none) :
    mapLookup ((step s u).1).map q = none := by
  by_cases hc : u ∈ s.seen_timestamps
  · rw [step_dup s u hc]
    exact h
  · rw [step_novel s u hc]
    simp only [prune]
    exact mapLookup_filter_none_of_none _ _ _ h

theorem applyEvt_absent (s : ProcessTree) (e : Evt) (q : Pid)
    (htouch : ¬ Evt.touches e q)
    (h : mapLookup s.map q = none) :
    mapLookup (applyEvt s e).map q = none := by
  rw [applyEvt_map_lookup_ne s e q htouch]
  exact step_absent s (Evt.timestamp e) q h

theorem applyEvts_absent (ts : List Evt) (s : ProcessTree) (q : Pid)
    (htouch : ∀ e ∈ ts, ¬ Evt.touches e q)
    (h : mapLookup s.map q = none) :
    mapLookup (applyEvts s ts).map q = none := by
  induction ts generalizing s with
  | nil => exact h
  | cons e rest ih =>
      have h1 := applyEvt_absent s e q
        (htouch e (List.mem_cons_self e rest)) h
      exact ih (applyEvt s e)
        (fun e' he' => htouch e' (List.mem_cons_of_mem e he')) h1

/-- A single event with a fresh timestamp, processed while the exit
timestamp `t` is still in the ring and not yet due: all tracking data of
`q` is preserved and the ring decomposition advances by one slot. -/
theorem applyEvt_preserves (s : ProcessTree) (e : Evt) (t : Nat) (q : Pid)
    (node : Process) (A B : List Nat)
    (hseen : s.seen_timestamps = A ++ t :: B)
    (hnd : (A ++ t :: B).Nodup)
    (hlen : A.length + (B.length + 1) ≤ 32)
    (hm : Evt.timestamp e ∉ A ++ t :: B)
    (htouch : ¬ Evt.touches e q)
    (hret : retainCount s.retained q = 0)
    (hmap : mapLookup s.map q = some node)
    (hra : s.remove_at.filter (fun kv => decide (kv.2 = q)) = [(t, q)])
    (hsurv : A.length + (B.length + 1) < 32 ∨ A ≠ []) :
    ∃ A', (applyEvt s e).seen_timestamps =
        A' ++ t :: (B ++ [Evt.timestamp e]) ∧
      (A' ++ t :: (B ++ [Evt.timestamp e])).Nodup ∧
      A'.length + ((B ++ [Evt.timestamp e]).length + 1) ≤ 32 ∧
      (∀ u ∈ A' ++ t :: (B ++ [Evt.timestamp e]),
        u = Evt.timestamp e ∨ u ∈ A ++ t :: B) ∧
      retainCount (applyEvt s e).retained q = 0 ∧
      mapLookup (applyEvt s e).map q = some node ∧
      (applyEvt s e).remove_at.filter (fun kv => decide (kv.2 = q)) =
        [(t, q)] := by
  obtain ⟨h2, A', hseen', hnd', hlen', hsub', hmap', hra'⟩ :=
    step_preserves s (Evt.timestamp e) t q node A B hseen hnd hlen hm
      hmap hra hsurv
  refine ⟨A', ?_, hnd', hlen', hsub', ?_, ?_, ?_⟩
  · rw [applyEvt_seen]
    exact hseen'
  · rw [applyEvt_retained]
    exact hret
  · rw [applyEvt_map_lookup_ne s e q htouch]
    exact hmap'
  · rw [applyEvt_remove_at_filter s e q htouch]
    exact hra'

/-- The 32nd fresh timestamp after the exit: `t` is evicted from the
ring, the pending removal of `q` becomes eligible, and the sweep deletes
`q`'s map entry. -/
theorem applyEvt_evicts (s : ProcessTree) (e : Evt) (t : Nat) (q : Pid)
    (B : List Nat)
    (hseen : s.seen_timestamps = t :: B)
    (hnd : (t :: B).Nodup)
    (hlen32 : B.length + 1 = 32)
    (hm : Evt.timestamp e ∉ t :: B)
    (htouch : ¬ Evt.touches e q)
    (hret : retainCount s.retained q = 0)
    (hra : s.remove_at.filter (fun kv => decide (kv.2 = q)) = [(t, q)]) :
    mapLookup (applyEvt s e).map q = none := by
  have hmem : Evt.timestamp e ∉ s.seen_timestamps := by
    rw [hseen]
    exact hm
  have hstep := step_novel s (Evt.timestamp e) hmem
  have hpush : pushTs s.seen_timestamps (Evt.timestamp e) =
      B ++ [Evt.timestamp e] := by
    rw [hseen, pushTs, if_neg]
    · rfl
    · simp [List.length_cons, hlen32]
  have htnotin : t ∉ B ++ [Evt.timestamp e] := by
    intro hmem2
    rcases List.mem_append.1 hmem2 with h | h
    · exact (List.nodup_cons.1 hnd).1 h
    · apply hm
      rw [← List.mem_singleton.1 h]
      exact List.mem_cons_self _ _
  have helig : eligibleB (B ++ [Evt.timestamp e]) s.retained (t, q) =
      true := eligibleB_true_of _ _ _ _ htnotin hret
  have hmem_ra := ra_entry_mem s.remove_at t q hra
  have hprune_map : mapLookup ((step s (Evt.timestamp e)).1).map q =
      none := by
    rw [hstep]
    simp only [prune]
    apply mapLookup_filter_none
    intro kv _ hkv
    have hany : s.remove_at.any (fun e' =>
        eligibleB (pushTs s.seen_timestamps (Evt.timestamp e)) s.retained
          e' && decide (e'.2 = kv.1)) = true := by
      rw [List.any_eq_true]
      refine ⟨(t, q), hmem_ra, ?_⟩
      rw [Bool.and_eq_true]
      constructor
      · rw [hpush]
        exact helig
      · simp [hkv]
    rw [hany]
    rfl
  rw [applyEvt_map_lookup_ne s e q htouch]
  exact hprune_map

theorem any_eq_false_of {α : Type} (l : List α) (p : α → Bool)
    (h : ∀ x ∈ l, p x = false) : l.any p = false := by
  cases ha : l.any p
  · rfl
  · rw [List.any_eq_true] at ha
    obtain ⟨x, hx, hpx⟩ := ha
    rw [h x hx] at hpx
    exact absurd hpx (by simp)

theorem handleExit_map (tr : ProcessTree) (t : Nat) (p : Process) :
    (handleExit tr t p).map = ((step tr t).1).map := by
  rw [handleExit]
  cases h2 : (step tr t).2 <;> simp [h2]

/-- The aging induction: as long as fewer than `32 - B.length` further
fresh-timestamp events are processed, the exited pid stays resolvable;
at the moment the exit timestamp is evicted, the pending removal fires
and the pid stays absent from then on. -/
theorem aging_aux (t : Nat) (q : Pid) (node : Process) :
    ∀ (ts : List Evt) (s : ProcessTree) (A B U : List Nat),
      s.seen_timestamps = A ++ t :: B →
      (A ++ t :: B).Nodup →
      A.length + (B.length + 1) ≤ 32 →
      (∀ u ∈ A ++ t :: B, u ∈ U) →
      (∀ e ∈ ts, Evt.timestamp e ∉ U) →
      (ts.map Evt.timestamp).Nodup →
      (∀ e ∈ ts, ¬ Evt.touches e q) →
      retainCount s.retained q = 0 →
      mapLookup s.map q = some node →
      s.remove_at.filter (fun kv => decide (kv.2 = q)) = [(t, q)] →
      mapLookup (applyEvts s ts).map q =
        if B.length + ts.length < 32 then some node else none := by
  intro ts
  induction ts with
  | nil =>
      intro s A B U hseen hnd hlen hU hts htsnd htouch hret hmap hra
      have hb : B.length < 32 := by omega
      have hc : B.length + ([] : List Evt).length < 32 := by
        simpa using hb
      rw [show applyEvts s [] = s from rfl, if_pos hc]
      exact hmap
  | cons e rest ih =>
      intro s A B U hseen hnd hlen hU hts htsnd htouch hret hmap hra
      have hm : Evt.timestamp e ∉ A ++ t :: B := fun hmem =>
        hts e (List.mem_cons_self e rest) (hU _ hmem)
      have htouche : ¬ Evt.touches e q :=
        htouch e (List.mem_cons_self e rest)
      have happly : applyEvts s (e :: rest) =
          applyEvts (applyEvt s e) rest := rfl
      by_cases hsurv : A.length + (B.length + 1) < 32 ∨ A ≠ []
      · obtain ⟨A', hseen', hnd', hlen', hsub', hret', hmap', hra'⟩ :=
          applyEvt_preserves s e t q node A B hseen hnd hlen hm htouche
            hret hmap hra hsurv
        have hU' : ∀ u ∈ A' ++ t :: (B ++ [Evt.timestamp e]),
            u ∈ Evt.timestamp e :: U := by
          intro u hu
          rcases hsub' u hu with h | h
          · rw [h]
            exact List.mem_cons_self _ _
          · exact List.mem_cons_of_mem _ (hU u h)
        have htsnd0 : (Evt.timestamp e :: rest.map Evt.timestamp).Nodup :=
          by simpa using htsnd
        have hts' : ∀ e' ∈ rest,
            Evt.timestamp e' ∉ Evt.timestamp e :: U := by
          intro e' he' hmem
          rcases List.mem_cons.1 hmem with h | h
          · exact (List.nodup_cons.1 htsnd0).1
              (h ▸ List.mem_map_of_mem Evt.timestamp he')
          · exact hts e' (List.mem_cons_of_mem e he') h
        have hrest := ih (applyEvt s e) A' (B ++ [Evt.timestamp e])
          (Evt.timestamp e :: U) hseen' hnd' hlen' hU' hts'
          (List.nodup_cons.1 htsnd0).2
          (fun e' he' => htouch e' (List.mem_cons_of_mem e he'))
          hret' hmap' hra'
        have hcond : ((B ++ [Evt.timestamp e]).length + rest.length < 32) ↔
            (B.length + (e :: rest).length < 32) := by
          simp only [List.length_append, List.length_cons, List.length_nil]
          omega
        rw [happly, hrest, if_congr hcond rfl rfl]
      · push_neg at hsurv
        obtain ⟨hnlt, hAnil⟩ := hsurv
        subst hAnil
        simp only [List.length_nil, List.nil_append]
          at hlen hnlt hseen hnd hm
        have hB31 : B.length + 1 = 32 := by omega
        have hnone := applyEvt_evicts s e t q B hseen hnd hB31 hm htouche
          hret hra
        have habs := applyEvts_absent rest (applyEvt s e) q
          (fun e' he' => htouch e' (List.mem_cons_of_mem e he')) hnone
        rw [happly, habs, if_neg]
        simp only [List.length_cons]
        omega

/-- C1: after a novel-timestamp `HandleExit(t, p)` on a well-formed tree
(nodup ring of at most 32 entries, no other pending removal for the pid,
no outstanding retention), processing any sequence of further events
whose timestamps are strictly newer than `t` and everything in the ring,
pairwise distinct, and which never target `p.pid`, leaves `Get(p.pid)`
resolving to the same node while fewer than 32 such events have been
processed and absent from the 32nd event onward. -/
theorem c1_exit_aging (tr : ProcessTree) (t : Nat) (p : Process)
    (node : Process) (ts : List Evt)
    (hnd : tr.seen_timestamps.Nodup)
    (hlen : tr.seen_timestamps.length ≤ 32)
    (hnovel : t ∉ tr.seen_timestamps)
    (hget : getProcess tr p.pid = some node)
    (hnoprior : ∀ e ∈ tr.remove_at, e.2 ≠ p.pid)
    (hret : retainCount tr.retained p.pid = 0)
    (hnew : ∀ e ∈ ts, t < Evt.timestamp e ∧
      ∀ u ∈ tr.seen_timestamps, u < Evt.timestamp e)
    (htsnd : (ts.map Evt.timestamp).Nodup)
    (htouch : ∀ e ∈ ts, ¬ Evt.touches e p.pid)
    (_hvalid : ∀ e ∈ ts, Evt.valid e) :
    getProcess (applyEvts (handleExit tr t p) ts) p.pid =
      if ts.length < 32 then some node else none := by
  have hstep := step_novel tr t hnovel
  have hseen0 : (handleExit tr t p).seen_timestamps =
      pushTs tr.seen_timestamps t := by
    rw [handleExit_seen, hstep, prune_seen]
  have hret0 : retainCount (handleExit tr t p).retained p.pid = 0 := by
    rw [handleExit_retained]
    exact hret
  have hnopriorB : ∀ e' ∈ tr.remove_at,
      decide (e'.2 = p.pid) = false := fun e' he' =>
    decide_eq_false (hnoprior e' he')
  have hmap0 : mapLookup (handleExit tr t p).map p.pid = some node := by
    rw [handleExit_map, hstep]
    simp only [prune]
    rw [mapLookup_filter_eq]
    · exact hget
    · intro kv _ hkv
      have hany : tr.remove_at.any (fun e' =>
          eligibleB (pushTs tr.seen_timestamps t) tr.retained e' &&
            decide (e'.2 = kv.1)) = false := by
        apply any_eq_false_of
        intro e' he'
        rw [hkv, hnopriorB e' he']
        simp
      rw [hany]
      rfl
  have hra0 : (handleExit tr t p).remove_at.filter
      (fun kv => decide (kv.2 = p.pid)) = [(t, p.pid)] := by
    have hform : (handleExit tr t p).remove_at =
        ((step tr t).1).remove_at ++ [(t, p.pid)] := by
      rw [handleExit]
      simp [hstep]
    rw [hform, List.filter_append]
    have hinner : tr.remove_at.filter
        (fun kv => decide (kv.2 = p.pid)) = [] :=
      List.filter_eq_nil_iff.2 (fun e' he' => by
        rw [hnopriorB e' he']
        simp)
    have h1 : ((step tr t).1).remove_at.filter
        (fun kv => decide (kv.2 = p.pid)) = [] := by
      rw [hstep]
      simp only [prune]
      rw [filter_swap, hinner]
      rfl
    rw [h1]
    simp [List.filter_cons]
  have hdecomp : ∃ A : List Nat,
      pushTs tr.seen_timestamps t = A ++ t :: [] ∧
      (A ++ t :: []).Nodup ∧
      A.length + 1 ≤ 32 ∧
      (∀ u ∈ A, u ∈ tr.seen_timestamps) := by
    by_cases hlt : tr.seen_timestamps.length < 32
    · refine ⟨tr.seen_timestamps, ?_, ?_, by omega, fun u hu => hu⟩
      · rw [pushTs, if_pos hlt]
      · rw [List.nodup_append]
        refine ⟨hnd, List.nodup_singleton t, fun u hu hu2 => ?_⟩
        rw [List.mem_singleton.1 hu2] at hu
        exact hnovel hu
    · cases hc : tr.seen_timestamps with
      | nil =>
          exfalso
          rw [hc] at hlt
          exact hlt (by decide)
      | cons a rest =>
          rw [hc] at hnd hnovel hlen hlt
          refine ⟨rest, ?_, ?_, ?_, ?_⟩
          · rw [pushTs, if_neg hlt]
            rfl
          · rw [List.nodup_append]
            refine ⟨hnd.of_cons, List.nodup_singleton t,
              fun u hu hu2 => ?_⟩
            rw [List.mem_singleton.1 hu2] at hu
            exact hnovel (List.mem_cons_of_mem a hu)
          · simp only [List.length_cons] at hlen
            omega
          · intro u hu
            exact List.mem_cons_of_mem a hu
  obtain ⟨A, hps, hndA, hlenA, hsubA⟩ := hdecomp
  have haux := aging_aux t p.pid node ts (handleExit tr t p) A []
    (t :: tr.seen_timestamps)
    (by rw [hseen0, hps]) hndA (by simpa using hlenA)
    (by
      intro u hu
      rcases List.mem_append.1 hu with h | h
      · exact List.mem_cons_of_mem t (hsubA u h)
      · rw [List.mem_singleton.1 h]
        exact List.mem_cons_self t _)
    (by
      intro e he hmem
      rcases List.mem_cons.1 hmem with h | h
      · exact absurd h.symm (Nat.ne_of_lt (hnew e he).1)
      · exact absurd ((hnew e he).2 _ h) (lt_irrefl _))
    htsnd htouch hret0 hmap0 hra0
  rw [getProcess, haux]
  exact if_congr (by simp) rfl rfl

/-- A tree tracking only `c6victim`, with empty ring, no pending
removals and no retention. -/
def c1tree : ProcessTree :=
  { annotators := [],
    map := [(⟨6, 0⟩, c6victim)],
    remove_at := [],
    seen_timestamps := [],
    retained := [] }

/-- Witness for C1: exiting `c6victim` at timestamp 5 and processing no
further events leaves it resolvable. -/
theorem c1_exit_aging_witness :
    getProcess (applyEvts (handleExit c1tree 5 c6victim) [])
        (Process.pid c6victim) =
      if ([] : List Evt).length < 32 then some c6victim else none :=
  c1_exit_aging c1tree 5 c6victim c6victim [] List.nodup_nil (by decide)
    (by decide) rfl (by decide) rfl
    (fun e he => absurd he (List.not_mem_nil e))
    List.nodup_nil
    (fun e he => absurd he (List.not_mem_nil e))
    (fun e he => absurd he (List.not_mem_nil e))

end SantaTree
